import Mathlib

/-!
# Verification of the filesystem-audit scanner

A shallow embedding, in Lean 4, of the core of `scan.py`: the mount
classifier (`get_mount_points`, `should_skip_path`), the path-safety codec
(`safe_decode_path`), the `os.walk`-based tree walker with mount pruning
(`collect_file_metadata`), and the chunked CSV writer.  Python strings are
modelled as `List Char` where string-structure (prefix) reasoning is needed,
and as `String` elsewhere; machine-level details (actual syscalls, the real
`/proc/mounts`) are abstracted as explicit inputs (a `resolve` oracle, the
list of lines read, a tree datatype for the directory hierarchy).
-/

/-- Python `str`, as a list of characters, used where prefix structure matters. -/
abbrev PStr := List Char

/-- The `SKIP_FS_TYPES` set from `scan.py` (lines 24-30): filesystem types
whose mounts are excluded from the scan. -/
def SKIP_FS_TYPES : List PStr :=
  ["proc".toList, "sysfs".toList, "devtmpfs".toList, "tmpfs".toList,
   "devpts".toList, "cgroup".toList, "cgroup2".toList,
   "pstore".toList, "efivarfs".toList, "bpf".toList, "securityfs".toList,
   "debugfs".toList, "tracefs".toList,
   "fusectl".toList, "mqueue".toList, "hugetlbfs".toList, "autofs".toList,
   "overlay".toList,
   "nfs".toList, "nfs4".toList, "cifs".toList, "smb3".toList, "smbfs".toList,
   "fuse.sshfs".toList, "glusterfs".toList,
   "lustre".toList, "9p".toList, "afs".toList]

/-- Python `max(iterable, key=len)`: first element of maximal length
(later elements replace the current best only when strictly longer). -/
def maxByLen : List PStr → Option PStr
  | [] => none
  | m :: ms => some (ms.foldl (fun best x => if best.length < x.length then x else best) m)

/-- Python `dict[key]` access on the mount dictionary, modelled as first
match in an association list (dict keys are unique, so first = only). -/
def dictFind (d : List (PStr × PStr)) (k : PStr) : Option PStr :=
  (d.find? (fun e => e.1 == k)).map (fun e => e.2)

/-- Python `dict[key] = value`: replace in place if the key exists, else
append (insertion order preserved). -/
def dictInsert (d : List (PStr × PStr)) (k v : PStr) : List (PStr × PStr) :=
  if d.any (fun e => e.1 == k) then d.map (fun e => if e.1 == k then (k, v) else e)
  else d ++ [(k, v)]

/-- Python `str.split()` with no argument: split on whitespace runs,
dropping empty fields (`/proc/mounts` lines are space-separated). -/
def splitWs (s : PStr) : List PStr :=
  (s.splitOn ' ').filter (fun w => ¬ w.isEmpty)

/-- `get_mount_points` from `scan.py` (lines 33-47).  The `open` of
`/proc/mounts` is modelled by an explicit input: `none` is the exception
path (the `except` clause prints a warning and the function returns the
still-empty dict), `some lines` the lines read.  Each line with at least
three fields contributes `parts[1] ↦ parts[2]`. -/
def get_mount_points (read_lines : Option (List PStr)) : List (PStr × PStr) :=
  match read_lines with
  | none => []
  | some lines =>
    lines.foldl (fun mounts line =>
      let parts := splitWs line
      if parts.length < 3 then mounts
      else dictInsert mounts (parts.getD 1 []) (parts.getD 2 [])) []

/-- `should_skip_path` from `scan.py` (lines 50-68).  `Path.resolve()` is
modelled by the oracle `resolve` (`none` = the `OSError`/`RuntimeError`
path).  `str(resolved).startswith(mp)` is plain string-prefix testing;
`max(matching_mounts, key=len)` is `maxByLen`; `mount_info[best_match]`
is `dictFind`.  The final `dictFind` cannot miss for a key drawn from the
dict itself; the `none` branch mirrors Python's (unreachable) `KeyError`
as a non-skip. -/
def should_skip_path (resolve : PStr → Option PStr) (path_str : PStr)
    (mount_info : List (PStr × PStr)) : Bool :=
  match resolve path_str with
  | none => true
  | some resolved =>
    let matching_mounts := (mount_info.map Prod.fst).filter (fun mp => mp.isPrefixOf resolved)
    match maxByLen matching_mounts with
    | none => false
    | some best_match =>
      match dictFind mount_info best_match with
      | some fs_type => SKIP_FS_TYPES.contains fs_type
      | none => false

theorem foldlLongest_mem (a : PStr) (ms : List PStr) :
    ms.foldl (fun best x => if best.length < x.length then x else best) a ∈ a :: ms := by
  induction ms generalizing a with
  | nil => simp
  | cons x xs ih =>
    simp only [List.foldl_cons]
    by_cases hx : a.length < x.length
    · simp only [hx, if_true]
      have h2 := ih x
      simp only [List.mem_cons] at h2 ⊢
      tauto
    · simp only [hx, if_false]
      have h2 := ih a
      simp only [List.mem_cons] at h2 ⊢
      tauto

theorem foldlLongest_max (a : PStr) (ms : List PStr) :
    ∀ y ∈ a :: ms,
      y.length ≤ (ms.foldl (fun best x => if best.length < x.length then x else best) a).length := by
  induction ms generalizing a with
  | nil => simp
  | cons x xs ih =>
    intro y hy
    simp only [List.mem_cons] at hy
    simp only [List.foldl_cons]
    by_cases hx : a.length < x.length
    · simp only [hx, if_true]
      rcases hy with h1 | h2 | h3
      · rw [h1]
        exact le_of_lt (lt_of_lt_of_le hx (ih x x (List.mem_cons_self x xs)))
      · rw [h2]
        exact ih x x (List.mem_cons_self x xs)
      · exact ih x y (List.mem_cons_of_mem x h3)
    · simp only [hx, if_false]
      rcases hy with h1 | h2 | h3
      · rw [h1]
        exact ih a a (List.mem_cons_self a xs)
      · rw [h2]
        exact le_trans (Nat.le_of_not_lt hx) (ih a a (List.mem_cons_self a xs))
      · exact ih a y (List.mem_cons_of_mem a h3)

theorem maxByLen_mem {l : List PStr} {m : PStr} (h : maxByLen l = some m) : m ∈ l := by
  match l with
  | [] => simp [maxByLen] at h
  | a :: as =>
    simp only [maxByLen, Option.some.injEq] at h
    subst h
    exact foldlLongest_mem a as

theorem maxByLen_max {l : List PStr} {m : PStr} (h : maxByLen l = some m) :
    ∀ x ∈ l, x.length ≤ m.length := by
  match l with
  | [] => simp [maxByLen] at h
  | a :: as =>
    simp only [maxByLen, Option.some.injEq] at h
    subst h
    exact foldlLongest_max a as

theorem maxByLen_ne_nil {l : List PStr} (h : l ≠ []) : ∃ m, maxByLen l = some m := by
  match l with
  | [] => exact absurd rfl h
  | a :: as => exact ⟨_, rfl⟩

theorem dictFind_of_pairwise {d : List (PStr × PStr)} {e : PStr × PStr}
    (huniq : d.Pairwise (fun a b => a.1 ≠ b.1)) (he : e ∈ d) :
    dictFind d e.1 = some e.2 := by
  induction d with
  | nil => simp at he
  | cons a as ih =>
    simp only [List.pairwise_cons] at huniq
    simp only [List.mem_cons] at he
    rcases he with rfl | he
    · simp [dictFind, List.find?]
    · have hne : a.1 ≠ e.1 := huniq.1 e he
      have : (a.1 == e.1) = false := by
        simp only [beq_eq_false_iff_ne, ne_eq]
        exact fun hc => hne hc
      simp only [dictFind, List.find?, this]
      exact ih huniq.2 he

/-- C1: classification of a candidate path first resolves it to canonical
form; among mount-table entries whose mount point is a string prefix of the
resolved path, the entry with the longest mount point decides, and the path
is Excluded (skipped) iff that entry's filesystem type is in the excluded
set; if no entry's mount point is a prefix of the resolved path, the path
is Scannable (not skipped). -/
theorem C1_longest_prefix_classification
    (resolve : PStr → Option PStr) (p r : PStr) (mount_info : List (PStr × PStr))
    (huniq : mount_info.Pairwise (fun a b => a.1 ≠ b.1))
    (hres : resolve p = some r) :
    ((∀ e ∈ mount_info, ¬ e.1 <+: r) → should_skip_path resolve p mount_info = false) ∧
    (∀ e ∈ mount_info, e.1 <+: r →
      (∀ e' ∈ mount_info, e'.1 <+: r → e'.1.length ≤ e.1.length) →
      (should_skip_path resolve p mount_info = true ↔ e.2 ∈ SKIP_FS_TYPES)) := by
  constructor
  · intro hnone
    have hmat : (mount_info.map Prod.fst).filter (fun mp => mp.isPrefixOf r) = [] := by
      rw [List.filter_eq_nil_iff]
      intro mp hmp
      simp only [List.mem_map] at hmp
      obtain ⟨e, he, hep⟩ := hmp
      rw [Bool.not_eq_true, Bool.eq_false_iff]
      intro hpre
      exact hnone e he (hep ▸ ( List.isPrefixOf_iff_prefix).mp hpre)
    simp [should_skip_path, hres, hmat, maxByLen]
  · intro e he hpre hmax
    have hmemf : e.1 ∈ (mount_info.map Prod.fst).filter (fun mp => mp.isPrefixOf r) := by
      rw [List.mem_filter]
      exact ⟨List.mem_map_of_mem Prod.fst he, ( List.isPrefixOf_iff_prefix).mpr hpre⟩
    have hne : (mount_info.map Prod.fst).filter (fun mp => mp.isPrefixOf r) ≠ [] := by
      intro hc
      rw [hc] at hmemf
      simp at hmemf
    obtain ⟨best, hbest⟩ := maxByLen_ne_nil hne
    have hbmem := maxByLen_mem hbest
    rw [List.mem_filter] at hbmem
    obtain ⟨hbmap, hbpre0⟩ := hbmem
    have hbpre : best <+: r := ( List.isPrefixOf_iff_prefix).mp hbpre0
    simp only [List.mem_map] at hbmap
    obtain ⟨e0, he0, he0b⟩ := hbmap
    have h1 : e.1.length ≤ best.length := maxByLen_max hbest e.1 hmemf
    have h2 : best.length ≤ e.1.length := by
      rw [← he0b]
      exact hmax e0 he0 (he0b ▸ hbpre)
    have hbe : e.1 = best :=
      List.IsPrefix.eq_of_length (List.prefix_of_prefix_length_le hpre hbpre h1)
        (Nat.le_antisymm h1 h2)
    have hdf : dictFind mount_info best = some e.2 := by
      rw [← hbe]
      exact dictFind_of_pairwise huniq he
    simp only [should_skip_path, hres, hbest, hdf]
    show SKIP_FS_TYPES.elem e.2 = true ↔ e.2 ∈ SKIP_FS_TYPES
    exact List.elem_iff

/-- Witness for C1 at a concrete mount table: `/proc/cpuinfo` resolves under
the `/proc` mount (the longest matching prefix, beating `/`), whose type
`proc` is excluded, so the path is skipped. -/
theorem C1_witness :
    should_skip_path (fun _ => some "/proc/cpuinfo".toList) "/proc/cpuinfo".toList
      [("/".toList, "ext4".toList), ("/proc".toList, "proc".toList)] = true := by
  have h := (C1_longest_prefix_classification
    (fun _ => some "/proc/cpuinfo".toList) "/proc/cpuinfo".toList "/proc/cpuinfo".toList
    [("/".toList, "ext4".toList), ("/proc".toList, "proc".toList)]
    (by decide) rfl).2 ("/proc".toList, "proc".toList) (by decide) (by decide) (by decide)
  rw [h]
  decide

/-- Is `b` a UTF-8 continuation byte (`0x80..0xBF`)? -/
def isCont (b : Nat) : Bool := decide (0x80 ≤ b) && decide (b < 0xC0)

/-- Valid second byte for a multi-byte UTF-8 sequence with lead byte `b₀`,
per RFC 3629 (restricted ranges after `E0`/`ED`/`F0`/`F4` rule out overlong
encodings and surrogates, exactly as Python's strict `utf-8` codec does). -/
def validSecond (b₀ b₁ : Nat) : Bool :=
  if b₀ = 0xE0 then decide (0xA0 ≤ b₁) && decide (b₁ < 0xC0)
  else if b₀ = 0xED then decide (0x80 ≤ b₁) && decide (b₁ < 0xA0)
  else if b₀ = 0xF0 then decide (0x90 ≤ b₁) && decide (b₁ < 0xC0)
  else if b₀ = 0xF4 then decide (0x80 ≤ b₁) && decide (b₁ < 0x90)
  else isCont b₁

/-- Python `bytes.decode('utf-8')` (strict): `some` list of code points on
valid UTF-8 input, `none` models the `UnicodeDecodeError` raised on any
ill-formed input (lone/illegal lead byte, bad continuation, truncation,
overlong form, surrogate). -/
def decodeUtf8Strict : List Nat → Option (List Nat)
  | [] => some []
  | b₀ :: bs =>
    if b₀ < 0x80 then (decodeUtf8Strict bs).map (fun cs => b₀ :: cs)
    else if b₀ < 0xC2 then none
    else if b₀ < 0xE0 then
      match bs with
      | b₁ :: bs₁ =>
        if isCont b₁ then
          (decodeUtf8Strict bs₁).map (fun cs => ((b₀ - 0xC0) * 0x40 + (b₁ - 0x80)) :: cs)
        else none
      | [] => none
    else if b₀ < 0xF0 then
      match bs with
      | b₁ :: bs₁ =>
        if validSecond b₀ b₁ then
          match bs₁ with
          | b₂ :: bs₂ =>
            if isCont b₂ then
              (decodeUtf8Strict bs₂).map
                (fun cs => ((b₀ - 0xE0) * 0x1000 + (b₁ - 0x80) * 0x40 + (b₂ - 0x80)) :: cs)
            else none
          | [] => none
        else none
      | [] => none
    else if b₀ < 0xF5 then
      match bs with
      | b₁ :: bs₁ =>
        if validSecond b₀ b₁ then
          match bs₁ with
          | b₂ :: bs₂ =>
            if isCont b₂ then
              match bs₂ with
              | b₃ :: bs₃ =>
                if isCont b₃ then
                  (decodeUtf8Strict bs₃).map
                    (fun cs =>
                      ((b₀ - 0xF0) * 0x40000 + (b₁ - 0x80) * 0x1000
                        + (b₂ - 0x80) * 0x40 + (b₃ - 0x80)) :: cs)
                else none
              | [] => none
            else none
          | [] => none
        else none
      | [] => none
    else none

/-- Python `bytes.decode('utf-8', errors='replace')`: total decoding in
which every maximal ill-formed subpart is replaced by one U+FFFD
REPLACEMENT CHARACTER (CPython substitutes the lead byte together with the
valid continuation bytes gathered so far, then restarts). -/
def decodeUtf8Replace : List Nat → List Nat
  | [] => []
  | b₀ :: bs =>
    if b₀ < 0x80 then b₀ :: decodeUtf8Replace bs
    else if b₀ < 0xC2 then 0xFFFD :: decodeUtf8Replace bs
    else if b₀ < 0xE0 then
      match bs with
      | b₁ :: bs₁ =>
        if isCont b₁ then ((b₀ - 0xC0) * 0x40 + (b₁ - 0x80)) :: decodeUtf8Replace bs₁
        else 0xFFFD :: decodeUtf8Replace (b₁ :: bs₁)
      | [] => [0xFFFD]
    else if b₀ < 0xF0 then
      match bs with
      | b₁ :: bs₁ =>
        if validSecond b₀ b₁ then
          match bs₁ with
          | b₂ :: bs₂ =>
            if isCont b₂ then
              ((b₀ - 0xE0) * 0x1000 + (b₁ - 0x80) * 0x40 + (b₂ - 0x80)) :: decodeUtf8Replace bs₂
            else 0xFFFD :: decodeUtf8Replace (b₂ :: bs₂)
          | [] => [0xFFFD]
        else 0xFFFD :: decodeUtf8Replace (b₁ :: bs₁)
      | [] => [0xFFFD]
    else if b₀ < 0xF5 then
      match bs with
      | b₁ :: bs₁ =>
        if validSecond b₀ b₁ then
          match bs₁ with
          | b₂ :: bs₂ =>
            if isCont b₂ then
              match bs₂ with
              | b₃ :: bs₃ =>
                if isCont b₃ then
                  ((b₀ - 0xF0) * 0x40000 + (b₁ - 0x80) * 0x1000
                    + (b₂ - 0x80) * 0x40 + (b₃ - 0x80)) :: decodeUtf8Replace bs₃
                else 0xFFFD :: decodeUtf8Replace (b₃ :: bs₃)
              | [] => [0xFFFD]
            else 0xFFFD :: decodeUtf8Replace (b₂ :: bs₂)
          | [] => [0xFFFD]
        else 0xFFFD :: decodeUtf8Replace (b₁ :: bs₁)
      | [] => [0xFFFD]
    else 0xFFFD :: decodeUtf8Replace bs
termination_by bs => bs.length
decreasing_by all_goals simp +arith

/-- `safe_decode_path` from `scan.py` (lines 71-77): try the strict UTF-8
decode; on `UnicodeDecodeError` fall back to the replacing decode. -/
def safe_decode_path (path_bytes : List Nat) : List Nat :=
  match decodeUtf8Strict path_bytes with
  | some s => s
  | none => decodeUtf8Replace path_bytes

/-- Is `c` a Unicode scalar value (a code point a text string may hold)? -/
def isScalar (c : Nat) : Bool :=
  decide (c < 0x110000 ∧ (c < 0xD800 ∨ 0xE000 ≤ c))


theorem decodeUtf8Replace_eq_strict :
    ∀ (bs cs : List Nat), decodeUtf8Strict bs = some cs → decodeUtf8Replace bs = cs := by
  intro bs
  induction bs using decodeUtf8Strict.induct
  all_goals intros
  all_goals rename_i cs h
  all_goals rw [decodeUtf8Strict.eq_def] at h
  all_goals simp only [*, ite_true, ite_false] at h
  all_goals
    first
    | exact Option.noConfusion h
    | (injection h with h2
       subst h2
       simp [decodeUtf8Replace])
    | (rw [Option.map_eq_some'] at h
       obtain ⟨a, ha, hfa⟩ := h
       subst hfa
       rw [decodeUtf8Replace.eq_def]
       simp only []
       split_ifs
       all_goals simp_all)

theorem isScalar_fffd : isScalar 0xFFFD = true := by decide

set_option maxRecDepth 8192 in
theorem decodeUtf8Replace_scalar :
    ∀ bs : List Nat, (decodeUtf8Replace bs).all isScalar = true := by
  intro bs
  induction bs using decodeUtf8Replace.induct
  all_goals rw [decodeUtf8Replace.eq_def]
  all_goals simp only []
  all_goals try split_ifs
  all_goals simp only [List.all_cons, List.all_nil, Bool.and_eq_true, Bool.and_true]
  all_goals try constructor
  all_goals
    first
    | rfl
    | decide
    | assumption
    | (simp only [isScalar, isCont, validSecond, Bool.and_eq_true, decide_eq_true_eq] at *
       first
       | omega
       | (split_ifs at * <;>
           (try simp only [Bool.and_eq_true, decide_eq_true_eq] at *) <;> omega))

/-- C10: for every byte sequence, the lossy-replace policy of
`safe_decode_path` returns a valid text string without raising: it is the
exact UTF-8 decoding whenever the bytes are valid UTF-8, and otherwise the
replacing decoding in which every invalid byte sequence is substituted by
the placeholder U+FFFD; in both cases every produced code point is a
Unicode scalar value. -/
theorem C10_safe_decode_path_total (bs : List Nat) :
    (∀ cs, decodeUtf8Strict bs = some cs → safe_decode_path bs = cs) ∧
    (decodeUtf8Strict bs = none → safe_decode_path bs = decodeUtf8Replace bs) ∧
    (safe_decode_path bs).all isScalar = true := by
  refine ⟨?_, ?_, ?_⟩
  · intro cs h
    simp [safe_decode_path, h]
  · intro h
    simp [safe_decode_path, h]
  · unfold safe_decode_path
    cases hd : decodeUtf8Strict bs with
    | none => exact decodeUtf8Replace_scalar bs
    | some s =>
      rw [← decodeUtf8Replace_eq_strict bs s hd]
      exact decodeUtf8Replace_scalar bs

/-- Witness for C10: `68 C3 A9` ("hé") is valid UTF-8 and decodes exactly;
`41 FF 42` is invalid, falls back to the replacing decode, and still yields
only scalar values. -/
theorem C10_witness :
    safe_decode_path [0x68, 0xC3, 0xA9] = [0x68, 0xE9] ∧
    safe_decode_path [0x41, 0xFF, 0x42] = decodeUtf8Replace [0x41, 0xFF, 0x42] ∧
    (safe_decode_path [0x41, 0xFF, 0x42]).all isScalar = true :=
  ⟨(C10_safe_decode_path_total [0x68, 0xC3, 0xA9]).1 [0x68, 0xE9] (by decide),
   (C10_safe_decode_path_total [0x41, 0xFF, 0x42]).2.1 (by decide),
   (C10_safe_decode_path_total [0x41, 0xFF, 0x42]).2.2⟩

/-- C5 counterexample: when the mount table could not be read
(`get_mount_points` takes its exception path and returns the empty dict),
a path that resolves fine is NOT skipped — `should_skip_path` returns
`false` (Scannable), contradicting the claim that classification resolves
to Excluded whenever the mount table is unreadable. -/
theorem C5_counterexample :
    should_skip_path (fun _ => some "/etc/passwd".toList) "/etc/passwd".toList
      (get_mount_points none) = false := by decide

/-- C5 amended: for every path whose canonical resolution fails the
classification is Excluded (skipped, fail-safe); but when the mount table
could not be read the mount dictionary is empty, and every path that does
resolve is classified Scannable (not skipped) — on that branch the code is
fail-open, as its own comments concede (`scan.py` lines 62, 99-101). -/
theorem C5_amended_resolution_fail_safe
    (resolve : PStr → Option PStr) (p : PStr) (mount_info : List (PStr × PStr)) :
    (resolve p = none → should_skip_path resolve p mount_info = true) ∧
    (∀ r, resolve p = some r → should_skip_path resolve p (get_mount_points none) = false) := by
  constructor
  · intro h
    simp [should_skip_path, h]
  · intro r h
    simp [should_skip_path, h, get_mount_points, maxByLen]

/-- Witness for C5 (amended): a failing resolution is skipped; with the
unreadable-mount-table dict a resolving path is scanned. -/
theorem C5_witness :
    should_skip_path (fun _ => none) "/x".toList [("/".toList, "ext4".toList)] = true ∧
    should_skip_path (fun _ => some "/x".toList) "/x".toList (get_mount_points none) = false :=
  ⟨(C5_amended_resolution_fail_safe (fun _ => none) "/x".toList
      [("/".toList, "ext4".toList)]).1 rfl,
   (C5_amended_resolution_fail_safe (fun _ => some "/x".toList) "/x".toList []).2
      "/x".toList rfl⟩

/-- The kind of a directory entry as reported by `os.lstat` (which never
follows symbolic links, so a link reports itself). -/
inductive FileKind where
  | regular
  | symlink
  | device
  | pipe
  | socket
  | other
  deriving DecidableEq

/-- Result of `os.lstat`: mode kind plus the fields `scan.py` reads. -/
structure FileStat where
  kind : FileKind
  st_size : Nat
  st_mtime : Int
  st_atime : Int
  deriving DecidableEq

/-- One directory entry from `os.walk`'s `filenames` list; `lstat = none`
models `os.lstat` raising `OSError`/`IOError` for this entry. -/
structure FileEntry where
  name : String
  lstat : Option FileStat
  deriving DecidableEq

/-- One CSV row as built in `collect_file_metadata` (`scan.py` lines
130-135): the four `fieldnames` of line 90. -/
structure CsvRow where
  path : String
  size_bytes : Nat
  mtime : Int
  atime : Int
  deriving DecidableEq

/-- The directory hierarchy `os.walk` traverses: a directory's plain files
and its subdirectories. -/
inductive FSTree where
  | mk (files : List FileEntry) (subdirs : List (String × FSTree))

/-- Per-file body of the walk loop (`scan.py` lines 106-146): `os.lstat`
(`none` → the `except` clause skips the entry), skip of non-regular
entries, the per-file mount double-check (line 117), then the row.  The
second component records the paths on which `should_skip_path` (the Mount
Classifier) is invoked: per code, only for an entry that passed both the
`lstat` and the regularity check. -/
def processFileT (skip : String → Bool) (filepath : String) (f : FileEntry) :
    Option CsvRow × List String :=
  match f.lstat with
  | none => (none, [])
  | some st =>
    match st.kind with
    | FileKind.regular =>
      (if skip filepath then none
       else some ⟨filepath, st.st_size, st.st_mtime, st.st_atime⟩,
       [filepath])
    | _ => (none, [])

/-- The walk of `collect_file_metadata` (`scan.py` lines 98-146), top-down:
at each directory the classifier is consulted (the consultation is recorded
in the trace component); if it says skip, `dirnames[:] = []` prunes the
subtree and `continue` skips the directory's files; otherwise the
directory's files are processed, then its subdirectories recursively.
Returns (emitted rows, trace of classifier invocations). -/
def walkDirT (skip : String → Bool) (path : String) : FSTree → List CsvRow × List String
  | FSTree.mk files subdirs =>
    if skip path then ([], [path])
    else
      let fr := files.map (fun f => processFileT skip (path ++ "/" ++ f.name) f)
      let sr := subdirs.attach.map (fun sd => walkDirT skip (path ++ "/" ++ sd.1.1) sd.1.2)
      (fr.filterMap (fun x => x.1) ++ (sr.map (fun x => x.1)).flatten,
       path :: ((fr.map (fun x => x.2)).flatten ++ (sr.map (fun x => x.2)).flatten))
termination_by t => sizeOf t
decreasing_by
  obtain ⟨⟨n, sub⟩, hmem⟩ := sd
  have h := List.sizeOf_lt_of_mem hmem
  simp at h ⊢
  omega

theorem walkDirT_eq (skip : String → Bool) (path : String)
    (files : List FileEntry) (subdirs : List (String × FSTree)) :
    walkDirT skip path (FSTree.mk files subdirs) =
      if skip path then ([], [path])
      else
        let fr := files.map (fun f => processFileT skip (path ++ "/" ++ f.name) f)
        let sr := subdirs.map (fun sd => walkDirT skip (path ++ "/" ++ sd.1) sd.2)
        (fr.filterMap (fun x => x.1) ++ (sr.map (fun x => x.1)).flatten,
         path :: ((fr.map (fun x => x.2)).flatten ++ (sr.map (fun x => x.2)).flatten)) := by
  rw [walkDirT]
  by_cases h : skip path
  · simp [h]
  · simp only [h, if_false]
    rw [List.attach_map_val subdirs (fun sd => walkDirT skip (path ++ "/" ++ sd.1) sd.2)]

/-- Structural induction over the directory tree. -/
theorem FSTree.ind (motive : FSTree → Prop)
    (h : ∀ files subdirs, (∀ p ∈ subdirs, motive p.2) → motive (FSTree.mk files subdirs)) :
    ∀ t, motive t
  | FSTree.mk files subdirs =>
    h files subdirs (fun p hp => FSTree.ind motive h p.2)
termination_by t => sizeOf t
decreasing_by
  have hs := List.sizeOf_lt_of_mem hp
  obtain ⟨n, sub⟩ := p
  simp at hs ⊢
  omega

/-- C2: for a directory the classifier marks excluded, the walk prunes
(`dirnames[:] = []`) and `continue`s: the subtree emits no rows at all, and
the classifier trace for the subtree is exactly the one consultation on the
excluded directory itself — it is never invoked on any child file or
subdirectory. -/
theorem C2_excluded_subtree_pruned (skip : String → Bool) (path : String) (t : FSTree)
    (h : skip path = true) :
    (walkDirT skip path t).1 = [] ∧ (walkDirT skip path t).2 = [path] := by
  cases t with
  | mk files subdirs =>
    rw [walkDirT_eq]
    simp [h]

/-- A small fixture: `/proc` with one file and one subdirectory. -/
def procTree : FSTree :=
  FSTree.mk [{ name := "cpuinfo", lstat := some ⟨FileKind.regular, 10, 0, 0⟩ }]
    [("sys", FSTree.mk [{ name := "kernel", lstat := some ⟨FileKind.regular, 3, 0, 0⟩ }] [])]

/-- Witness for C2: walking an excluded `/proc` yields no rows and consults
the classifier only on `/proc` itself. -/
theorem C2_witness :
    (walkDirT (fun p => decide (p = "/proc")) "/proc" procTree).1 = [] ∧
    (walkDirT (fun p => decide (p = "/proc")) "/proc" procTree).2 = ["/proc"] :=
  C2_excluded_subtree_pruned (fun p => decide (p = "/proc")) "/proc" procTree (by decide)

/-- Remove from every directory of the tree the file entries rejected by
`keep` (subdirectories are kept and transformed recursively). -/
def filterFilesTree (keep : FileEntry → Bool) : FSTree → FSTree
  | FSTree.mk files subdirs =>
    FSTree.mk (files.filter keep)
      (subdirs.attach.map (fun sd => (sd.1.1, filterFilesTree keep sd.1.2)))
termination_by t => sizeOf t
decreasing_by
  obtain ⟨⟨n, sub⟩, hmem⟩ := sd
  have h := List.sizeOf_lt_of_mem hmem
  simp at h ⊢
  omega

theorem filterFilesTree_eq (keep : FileEntry → Bool) (files : List FileEntry)
    (subdirs : List (String × FSTree)) :
    filterFilesTree keep (FSTree.mk files subdirs) =
      FSTree.mk (files.filter keep)
        (subdirs.map (fun sd => (sd.1, filterFilesTree keep sd.2))) := by
  rw [filterFilesTree]
  congr 1
  rw [List.attach_map_val subdirs (fun sd => (sd.1, filterFilesTree keep sd.2))]

theorem processT_filter_components (g : FileEntry → Option CsvRow × List String)
    (keep : FileEntry → Bool)
    (hg : ∀ f, keep f = false → g f = (none, []))
    (files : List FileEntry) :
    ((files.filter keep).map g).filterMap (fun x => x.1) =
        (files.map g).filterMap (fun x => x.1) ∧
    (((files.filter keep).map g).map (fun x => x.2)).flatten =
        ((files.map g).map (fun x => x.2)).flatten := by
  induction files with
  | nil => simp
  | cons f fs ih =>
    by_cases hk : keep f = true
    · simp only [List.filter_cons, hk, if_true, List.map_cons]
      constructor
      · simp only [List.filterMap_cons]
        cases ho : (g f).1 with
        | none => simp only [ho, ih.1]
        | some r => simp only [ho, ih.1]
      · simp only [List.flatten_cons, ih.2]
    · have hkf : keep f = false := by
        cases hkk : keep f
        · rfl
        · exact absurd hkk hk
      have h0 := hg f hkf
      constructor
      · simp only [List.filter_cons, hkf, Bool.false_eq_true, if_false, List.map_cons,
          List.filterMap_cons, h0, ih.1]
      · simp only [List.filter_cons, hkf, Bool.false_eq_true, if_false, List.map_cons,
          List.flatten_cons, h0, ih.2, List.nil_append]

theorem walkDirT_filterFiles (keep : FileEntry → Bool)
    (hkeep : ∀ (skip : String → Bool) (fp : String) (f : FileEntry),
      keep f = false → processFileT skip fp f = (none, []))
    (skip : String → Bool) (path : String) (t : FSTree) :
    walkDirT skip path (filterFilesTree keep t) = walkDirT skip path t := by
  induction t using FSTree.ind generalizing path with
  | h files subdirs ih =>
    rw [filterFilesTree_eq, walkDirT_eq, walkDirT_eq]
    by_cases h : skip path
    · simp [h]
    · simp only [h, if_false]
      have hf := processT_filter_components
        (fun f => processFileT skip (path ++ "/" ++ f.name) f) keep
        (fun f hkf => hkeep skip (path ++ "/" ++ f.name) f hkf) files
      have hsub : (subdirs.map (fun sd => (sd.1, filterFilesTree keep sd.2))).map
            (fun sd => walkDirT skip (path ++ "/" ++ sd.1) sd.2) =
          subdirs.map (fun sd => walkDirT skip (path ++ "/" ++ sd.1) sd.2) := by
        rw [List.map_map]
        apply List.map_congr_left
        intro sd hsd
        exact ih sd hsd (path ++ "/" ++ sd.1)
      simp only [hf.1, hf.2, hsub]

/-- Keep a file entry unless its (successful) `lstat` reports a non-regular
kind: the entries `scan.py` line 113 (`stat.S_ISREG`) filters out. -/
def keepRegularOrErrored (f : FileEntry) : Bool :=
  match f.lstat with
  | none => true
  | some st =>
    match st.kind with
    | FileKind.regular => true
    | _ => false

/-- Keep a file entry unless `os.lstat` raised for it: the entries the
`except (OSError, IOError)` clause of `scan.py` lines 144-146 skips. -/
def keepStatOk (f : FileEntry) : Bool := f.lstat.isSome

/-- C6: metadata is obtained with `os.lstat` (a no-follow status call, so
symlinks report themselves and are never followed), and any entry whose
status is not a regular file — symlink, device, pipe, socket, other —
produces no row and triggers nothing else: deleting all such entries from
the tree leaves the walk's entire output (rows and classifier trace)
unchanged. -/
theorem C6_nonregular_entries_skipped (skip : String → Bool) (path : String) (t : FSTree) :
    walkDirT skip path (filterFilesTree keepRegularOrErrored t) = walkDirT skip path t ∧
    (∀ (fp : String) (f : FileEntry) (st : FileStat), f.lstat = some st →
      st.kind ≠ FileKind.regular → processFileT skip fp f = (none, [])) := by
  constructor
  · apply walkDirT_filterFiles
    intro skip2 fp f hkf
    unfold keepRegularOrErrored at hkf
    unfold processFileT
    cases hs : f.lstat with
    | none => rfl
    | some st =>
      rw [hs] at hkf
      cases hk : st.kind <;> simp_all
  · intro fp f st hs hk
    unfold processFileT
    rw [hs]
    cases hkk : st.kind <;> simp_all

/-- Witness for C6: a symlink entry (even one `lstat` succeeds on) yields
no row and no classifier consultation. -/
theorem C6_witness :
    processFileT (fun _ => false) "/a/link"
      { name := "link", lstat := some ⟨FileKind.symlink, 5, 0, 0⟩ } = (none, []) :=
  (C6_nonregular_entries_skipped (fun _ => false) "/a" (FSTree.mk [] [])).2
    "/a/link" { name := "link", lstat := some ⟨FileKind.symlink, 5, 0, 0⟩ }
    ⟨FileKind.symlink, 5, 0, 0⟩ rfl (by decide)

/-- C7: a per-entry I/O error (the `except (OSError, IOError)` handler)
skips exactly that entry and the walk continues: deleting every erroring
entry from the tree leaves the walk's entire output unchanged — every
other entry in the same and in later directories is still processed, and
the walk (a total function) never aborts. -/
theorem C7_per_entry_error_skipped (skip : String → Bool) (path : String) (t : FSTree) :
    walkDirT skip path (filterFilesTree keepStatOk t) = walkDirT skip path t ∧
    (∀ (fp : String) (f : FileEntry), f.lstat = none →
      processFileT skip fp f = (none, [])) := by
  constructor
  · apply walkDirT_filterFiles
    intro skip2 fp f hkf
    unfold keepStatOk at hkf
    unfold processFileT
    cases hs : f.lstat with
    | none => rfl
    | some st => simp_all
  · intro fp f hs
    unfold processFileT
    rw [hs]

/-- Witness for C7: an entry whose `lstat` raised contributes nothing. -/
theorem C7_witness :
    processFileT (fun _ => false) "/a/ghost" { name := "ghost", lstat := none } = (none, []) :=
  (C7_per_entry_error_skipped (fun _ => false) "/a" (FSTree.mk [] [])).2
    "/a/ghost" { name := "ghost", lstat := none } rfl

/-- One iteration of the buffering logic in `collect_file_metadata`
(`scan.py` lines 130-141): `buffer.append(record)`; then if
`len(buffer) >= chunk_size`, `writer.writerows(buffer)` (one more element
of the write list) and `buffer.clear()`.  State = (buffer, writes so far). -/
def writeStep (chunk_size : Nat) (st : List CsvRow × List (List CsvRow)) (r : CsvRow) :
    List CsvRow × List (List CsvRow) :=
  let buffer := st.1 ++ [r]
  if chunk_size ≤ buffer.length then ([], st.2 ++ [buffer]) else (buffer, st.2)

/-- The whole output discipline of `collect_file_metadata`: fold the
per-record step over the record stream, then the final
`if buffer: writer.writerows(buffer)` of `scan.py` lines 151-154. -/
def writeAll (chunk_size : Nat) (records : List CsvRow) : List (List CsvRow) :=
  let st := records.foldl (writeStep chunk_size) ([], [])
  if st.1.isEmpty then st.2 else st.2 ++ [st.1]

theorem writeFold_invariant (N : Nat) (hN : 1 ≤ N) (rs : List CsvRow) :
    ∀ st : List CsvRow × List (List CsvRow), st.1.length < N →
      ((rs.foldl (writeStep N) st).1.length < N ∧
       (rs.foldl (writeStep N) st).2.flatten ++ (rs.foldl (writeStep N) st).1 =
         st.2.flatten ++ st.1 ++ rs ∧
       (∀ w ∈ (rs.foldl (writeStep N) st).2, w ∈ st.2 ∨ w.length = N)) := by
  induction rs with
  | nil =>
    intro st hlt
    exact ⟨hlt, by simp, fun w hw => Or.inl hw⟩
  | cons r rest ih =>
    intro st hlt
    rw [List.foldl_cons]
    by_cases hfull : N ≤ (st.1 ++ [r]).length
    · have hstep : writeStep N st r = ([], st.2 ++ [st.1 ++ [r]]) := by
        unfold writeStep
        simp only [hfull, if_true]
      have hlen : (st.1 ++ [r]).length = N := by
        simp only [List.length_append, List.length_cons, List.length_nil] at hfull ⊢
        omega
      rw [hstep]
      obtain ⟨ha, hb, hc⟩ := ih ([], st.2 ++ [st.1 ++ [r]]) (by simpa using hN)
      refine ⟨ha, ?_, ?_⟩
      · rw [hb]
        simp
      · intro w hw
        rcases hc w hw with hw2 | hw2
        · simp only [List.mem_append, List.mem_singleton] at hw2
          rcases hw2 with hw3 | hw3
          · exact Or.inl hw3
          · exact Or.inr (hw3 ▸ hlen)
        · exact Or.inr hw2
    · have hstep : writeStep N st r = (st.1 ++ [r], st.2) := by
        unfold writeStep
        simp only [hfull, if_false]
      rw [hstep]
      have hlt2 : (st.1 ++ [r]).length < N := by
        simp only [List.length_append, List.length_cons, List.length_nil] at hfull ⊢
        omega
      obtain ⟨ha, hb, hc⟩ := ih (st.1 ++ [r], st.2) hlt2
      refine ⟨ha, ?_, hc⟩
      · rw [hb]
        simp

/-- C3: for every record stream and batch size `N ≥ 1` the writer performs
write-and-clear exactly when the buffer reaches `N` (every non-final write
has exactly `N` rows, every write has between 1 and `N`), flushes any
non-empty partial batch at end-of-stream, and loses or duplicates nothing
(the concatenation of all writes is the input stream); in particular with
batch size 2 and five records it performs exactly three writes of sizes
2, 2, 1. -/
theorem C3_write_and_clear (N : Nat) (rs : List CsvRow) (hN : 1 ≤ N) :
    (writeAll N rs).flatten = rs ∧
    (∀ w ∈ (writeAll N rs).dropLast, w.length = N) ∧
    (∀ w ∈ writeAll N rs, 1 ≤ w.length ∧ w.length ≤ N) ∧
    (∀ r1 r2 r3 r4 r5 : CsvRow,
      writeAll 2 [r1, r2, r3, r4, r5] = [[r1, r2], [r3, r4], [r5]]) := by
  obtain ⟨hlen, hflat, hmem⟩ :=
    writeFold_invariant N hN rs ([], []) (by simpa using hN)
  have hmemN : ∀ w ∈ (rs.foldl (writeStep N) ([], [])).2, w.length = N := by
    intro w hw
    rcases hmem w hw with h2 | h2
    · simp at h2
    · exact h2
  simp only [List.flatten_nil, List.nil_append] at hflat
  refine ⟨?_, ?_, ?_, ?_⟩
  · unfold writeAll
    by_cases he : (rs.foldl (writeStep N) ([], [])).1.isEmpty
    · simp only [he, if_true]
      rw [List.isEmpty_iff] at he
      rw [he, List.append_nil] at hflat
      exact hflat
    · simp only [he, Bool.false_eq_true, if_false]
      rw [List.flatten_append]
      simpa using hflat
  · unfold writeAll
    by_cases he : (rs.foldl (writeStep N) ([], [])).1.isEmpty
    · simp only [he, if_true]
      intro w hw
      exact hmemN w ((List.dropLast_sublist _).subset hw)
    · simp only [he, Bool.false_eq_true, if_false]
      intro w hw
      rw [List.dropLast_concat] at hw
      exact hmemN w hw
  · unfold writeAll
    by_cases he : (rs.foldl (writeStep N) ([], [])).1.isEmpty
    · simp only [he, if_true]
      intro w hw
      have := hmemN w hw
      omega
    · simp only [he, Bool.false_eq_true, if_false]
      intro w hw
      rw [List.mem_append] at hw
      rcases hw with hw | hw
      · have := hmemN w hw
        omega
      · simp only [List.mem_singleton] at hw
        subst hw
        have hne : (rs.foldl (writeStep N) ([], [])).1 ≠ [] := by
          intro hc
          rw [hc] at he
          simp at he
        have hpos : 0 < (rs.foldl (writeStep N) ([], [])).1.length :=
          List.length_pos.mpr hne
        omega
  · intro r1 r2 r3 r4 r5
    rfl

/-- Witness for C3: five concrete rows at batch size 2 produce exactly the
three expected writes, and their concatenation is the input. -/
theorem C3_witness :
    writeAll 2 [⟨"/r1", 1, 0, 0⟩, ⟨"/r2", 2, 0, 0⟩, ⟨"/r3", 3, 0, 0⟩,
        ⟨"/r4", 4, 0, 0⟩, ⟨"/r5", 5, 0, 0⟩] =
      [[⟨"/r1", 1, 0, 0⟩, ⟨"/r2", 2, 0, 0⟩], [⟨"/r3", 3, 0, 0⟩, ⟨"/r4", 4, 0, 0⟩],
        [⟨"/r5", 5, 0, 0⟩]] ∧
    (writeAll 2 [⟨"/r1", 1, 0, 0⟩, ⟨"/r2", 2, 0, 0⟩, ⟨"/r3", 3, 0, 0⟩,
        ⟨"/r4", 4, 0, 0⟩, ⟨"/r5", 5, 0, 0⟩]).flatten =
      [⟨"/r1", 1, 0, 0⟩, ⟨"/r2", 2, 0, 0⟩, ⟨"/r3", 3, 0, 0⟩,
        ⟨"/r4", 4, 0, 0⟩, ⟨"/r5", 5, 0, 0⟩] :=
  ⟨(C3_write_and_clear 2 [⟨"/r1", 1, 0, 0⟩, ⟨"/r2", 2, 0, 0⟩, ⟨"/r3", 3, 0, 0⟩,
        ⟨"/r4", 4, 0, 0⟩, ⟨"/r5", 5, 0, 0⟩] (by decide)).2.2.2
      (⟨"/r1", 1, 0, 0⟩ : CsvRow) (⟨"/r2", 2, 0, 0⟩ : CsvRow) (⟨"/r3", 3, 0, 0⟩ : CsvRow)
      (⟨"/r4", 4, 0, 0⟩ : CsvRow) (⟨"/r5", 5, 0, 0⟩ : CsvRow),
   (C3_write_and_clear 2 [⟨"/r1", 1, 0, 0⟩, ⟨"/r2", 2, 0, 0⟩, ⟨"/r3", 3, 0, 0⟩,
        ⟨"/r4", 4, 0, 0⟩, ⟨"/r5", 5, 0, 0⟩] (by decide)).1⟩

/-- C4: at every point of the stream — i.e. after processing any prefix —
the in-memory buffer holds fewer than `N` records (it is cleared the moment
it reaches `N`), and even the transient buffer that exists between the
`append` and the length check holds at most `N` records. -/
theorem C4_buffer_bounded (N : Nat) (rs : List CsvRow) (hN : 1 ≤ N) :
    ((rs.foldl (writeStep N) ([], [])).1).length < N ∧
    (∀ (p : List CsvRow) (r : CsvRow), p <+: rs →
      (((p.foldl (writeStep N) ([], [])).1) ++ [r]).length ≤ N) := by
  constructor
  · exact (writeFold_invariant N hN rs ([], []) (by simpa using hN)).1
  · intro p r hp
    have h := (writeFold_invariant N hN p ([], []) (by simpa using hN)).1
    simp only [List.length_append, List.length_cons, List.length_nil]
    omega

/-- Witness for C4 at batch size 2 and a concrete three-record stream with
its two-record prefix. -/
theorem C4_witness :
    ((([⟨"/r1", 1, 0, 0⟩, ⟨"/r2", 2, 0, 0⟩,
        ⟨"/r3", 3, 0, 0⟩] : List CsvRow).foldl (writeStep 2) ([], [])).1).length < 2 ∧
    (((([⟨"/r1", 1, 0, 0⟩, ⟨"/r2", 2, 0, 0⟩] : List CsvRow).foldl
          (writeStep 2) ([], [])).1
        ++ [(⟨"/r3", 3, 0, 0⟩ : CsvRow)]).length ≤ 2) :=
  ⟨(C4_buffer_bounded 2 [⟨"/r1", 1, 0, 0⟩, ⟨"/r2", 2, 0, 0⟩, ⟨"/r3", 3, 0, 0⟩]
      (by decide)).1,
   (C4_buffer_bounded 2 [⟨"/r1", 1, 0, 0⟩, ⟨"/r2", 2, 0, 0⟩, ⟨"/r3", 3, 0, 0⟩]
      (by decide)).2 [⟨"/r1", 1, 0, 0⟩, ⟨"/r2", 2, 0, 0⟩] ⟨"/r3", 3, 0, 0⟩
      ⟨[⟨"/r3", 3, 0, 0⟩], rfl⟩⟩

/-- The CSV header of `scan.py` line 90. -/
def fieldnames : List String := ["path", "size_bytes", "mtime", "atime"]

/-- The timestamp field names the spec speaks of: access, modification and
change time. -/
def timestampFieldNames : List String := ["atime", "mtime", "ctime"]

/-- C9 counterexample: the emitted record holds exactly TWO timestamps
(`mtime` and `atime`), not the three the claim states — `ctime` is never
captured (`scan.py` lines 90, 120-135). -/
theorem C9_counterexample :
    (fieldnames.filter (fun f => decide (f ∈ timestampFieldNames))).length = 2 ∧
    ¬ (fieldnames.filter (fun f => decide (f ∈ timestampFieldNames))).length = 3 := by
  constructor
  · rfl
  · decide

/-- C9 amended: for every regular file visited without error (and not
re-excluded by the per-file mount check), the emitted record captures the
file's size, TWO timestamps (modification and access time), and the path;
the header row confirms exactly two timestamp columns. -/
theorem C9_amended_record_fields (skip : String → Bool) (filepath : String)
    (f : FileEntry) (st : FileStat)
    (hs : f.lstat = some st) (hreg : st.kind = FileKind.regular)
    (hskip : skip filepath = false) :
    (processFileT skip filepath f).1 =
      some { path := filepath, size_bytes := st.st_size,
             mtime := st.st_mtime, atime := st.st_atime } ∧
    (fieldnames.filter (fun fl => decide (fl ∈ timestampFieldNames))).length = 2 := by
  constructor
  · unfold processFileT
    rw [hs]
    simp only []
    rw [hreg]
    simp [hskip]
  · rfl

/-- Witness for C9 (amended) on a concrete regular file. -/
theorem C9_witness :
    (processFileT (fun _ => false) "/a/f"
        { name := "f", lstat := some ⟨FileKind.regular, 100, 7, 8⟩ }).1 =
      some { path := "/a/f", size_bytes := 100, mtime := 7, atime := 8 } :=
  (C9_amended_record_fields (fun _ => false) "/a/f"
    { name := "f", lstat := some ⟨FileKind.regular, 100, 7, 8⟩ }
    ⟨FileKind.regular, 100, 7, 8⟩ rfl rfl rfl).1

/-- Record kind in the aggregating (two-pass) engine variant. -/
inductive EntryKind where
  | File
  | Directory
  deriving DecidableEq

/-- Modelled from the spec: the EntryRecord of the aggregating variant
(§3) — path, kind, and `size_bytes` (file size, or the directory's rolled
up subtree total).  The Directory Aggregator source is not under `src/`;
the record and the walk below follow the spec's words. -/
structure AggRecord where
  path : String
  kind : EntryKind
  size_bytes : Nat
  deriving DecidableEq

/-- Modelled from the spec: pass 1 of the two-pass engine (§4.3-§4.4) —
file records in traversal order, with the same pruning and per-file
discipline as the one-pass walker (`processFileT`). -/
def aggFileRecords (skip : String → Bool) (path : String) : FSTree → List AggRecord
  | FSTree.mk files subdirs =>
    if skip path then []
    else
      (files.filterMap (fun f =>
        match (processFileT skip (path ++ "/" ++ f.name) f).1 with
        | none => none
        | some row => some ⟨row.path, EntryKind.File, row.size_bytes⟩))
      ++ (subdirs.attach.map
            (fun sd => aggFileRecords skip (path ++ "/" ++ sd.1.1) sd.1.2)).flatten
termination_by t => sizeOf t
decreasing_by
  obtain ⟨⟨n, sub⟩, hmem⟩ := sd
  have h := List.sizeOf_lt_of_mem hmem
  simp at h ⊢
  omega

/-- Modelled from the spec: the Directory Aggregator's rolled-up total
(§4.4) — the sum of the sizes of exactly the regular files recorded in the
directory's subtree; pruned subtrees contribute zero (§8). -/
def subtreeTotal (skip : String → Bool) (path : String) : FSTree → Nat
  | FSTree.mk files subdirs =>
    if skip path then 0
    else
      (files.map (fun f =>
        match (processFileT skip (path ++ "/" ++ f.name) f).1 with
        | none => 0
        | some row => row.size_bytes)).sum
      + (subdirs.attach.map
           (fun sd => subtreeTotal skip (path ++ "/" ++ sd.1.1) sd.1.2)).sum
termination_by t => sizeOf t
decreasing_by
  obtain ⟨⟨n, sub⟩, hmem⟩ := sd
  have h := List.sizeOf_lt_of_mem hmem
  simp at h ⊢
  omega

/-- Modelled from the spec: pass 2 of the two-pass engine (§4.4) — one
record per visited (non-pruned) directory carrying its final total,
emitted only after the whole collection pass, parents before children. -/
def aggDirRecords (skip : String → Bool) (path : String) : FSTree → List AggRecord
  | FSTree.mk files subdirs =>
    if skip path then []
    else
      (⟨path, EntryKind.Directory, subtreeTotal skip path (FSTree.mk files subdirs)⟩ : AggRecord)
        :: (subdirs.attach.map
              (fun sd => aggDirRecords skip (path ++ "/" ++ sd.1.1) sd.1.2)).flatten
termination_by t => sizeOf t
decreasing_by
  obtain ⟨⟨n, sub⟩, hmem⟩ := sd
  have h := List.sizeOf_lt_of_mem hmem
  simp at h ⊢
  omega

/-- Modelled from the spec: the full record stream of the aggregating
variant — every file record (all of pass 1), then every directory record
(pass 2), so each directory record appears after the records of all its
descendants. -/
def walkAgg (skip : String → Bool) (path : String) (t : FSTree) : List AggRecord :=
  aggFileRecords skip path t ++ aggDirRecords skip path t

/-- The files the walk visits and records (paths in traversal order):
regular, `lstat` succeeded, not excluded by the per-file mount check,
inside a non-pruned directory. -/
def visitedFiles (skip : String → Bool) (path : String) : FSTree → List String
  | FSTree.mk files subdirs =>
    if skip path then []
    else
      (files.filterMap (fun f =>
        match f.lstat with
        | none => none
        | some st =>
          match st.kind with
          | FileKind.regular =>
            if skip (path ++ "/" ++ f.name) then none else some (path ++ "/" ++ f.name)
          | _ => none))
      ++ (subdirs.attach.map
            (fun sd => visitedFiles skip (path ++ "/" ++ sd.1.1) sd.1.2)).flatten
termination_by t => sizeOf t
decreasing_by
  obtain ⟨⟨n, sub⟩, hmem⟩ := sd
  have h := List.sizeOf_lt_of_mem hmem
  simp at h ⊢
  omega

/-- The directories the walk visits (is not pruned from), in pre-order. -/
def visitedDirs (skip : String → Bool) (path : String) : FSTree → List String
  | FSTree.mk _ subdirs =>
    if skip path then []
    else
      path :: (subdirs.attach.map
        (fun sd => visitedDirs skip (path ++ "/" ++ sd.1.1) sd.1.2)).flatten
termination_by t => sizeOf t
decreasing_by
  obtain ⟨⟨n, sub⟩, hmem⟩ := sd
  have h := List.sizeOf_lt_of_mem hmem
  simp at h ⊢
  omega

/-- Every filesystem object the aggregating walk visits, tagged with its
kind, in the emission order of `walkAgg`. -/
def visitedObjects (skip : String → Bool) (path : String) (t : FSTree) :
    List (String × EntryKind) :=
  (visitedFiles skip path t).map (fun p => (p, EntryKind.File))
    ++ (visitedDirs skip path t).map (fun p => (p, EntryKind.Directory))

theorem aggFileRecords_eq (skip : String → Bool) (path : String)
    (files : List FileEntry) (subdirs : List (String × FSTree)) :
    aggFileRecords skip path (FSTree.mk files subdirs) =
      if skip path then []
      else
        (files.filterMap (fun f =>
          match (processFileT skip (path ++ "/" ++ f.name) f).1 with
          | none => none
          | some row => some ⟨row.path, EntryKind.File, row.size_bytes⟩))
        ++ (subdirs.map (fun sd => aggFileRecords skip (path ++ "/" ++ sd.1) sd.2)).flatten := by
  rw [aggFileRecords]
  by_cases h : skip path
  · simp [h]
  · simp only [h, if_false]
    rw [List.attach_map_val subdirs (fun sd => aggFileRecords skip (path ++ "/" ++ sd.1) sd.2)]

theorem subtreeTotal_eq (skip : String → Bool) (path : String)
    (files : List FileEntry) (subdirs : List (String × FSTree)) :
    subtreeTotal skip path (FSTree.mk files subdirs) =
      if skip path then 0
      else
        (files.map (fun f =>
          match (processFileT skip (path ++ "/" ++ f.name) f).1 with
          | none => 0
          | some row => row.size_bytes)).sum
        + (subdirs.map (fun sd => subtreeTotal skip (path ++ "/" ++ sd.1) sd.2)).sum := by
  rw [subtreeTotal]
  by_cases h : skip path
  · simp [h]
  · simp only [h, if_false]
    rw [List.attach_map_val subdirs (fun sd => subtreeTotal skip (path ++ "/" ++ sd.1) sd.2)]

theorem aggDirRecords_eq (skip : String → Bool) (path : String)
    (files : List FileEntry) (subdirs : List (String × FSTree)) :
    aggDirRecords skip path (FSTree.mk files subdirs) =
      if skip path then []
      else
        (⟨path, EntryKind.Directory,
            subtreeTotal skip path (FSTree.mk files subdirs)⟩ : AggRecord)
          :: (subdirs.map (fun sd => aggDirRecords skip (path ++ "/" ++ sd.1) sd.2)).flatten := by
  rw [aggDirRecords]
  by_cases h : skip path
  · simp [h]
  · simp only [h, if_false]
    rw [List.attach_map_val subdirs (fun sd => aggDirRecords skip (path ++ "/" ++ sd.1) sd.2)]

theorem visitedFiles_eq (skip : String → Bool) (path : String)
    (files : List FileEntry) (subdirs : List (String × FSTree)) :
    visitedFiles skip path (FSTree.mk files subdirs) =
      if skip path then []
      else
        (files.filterMap (fun f =>
          match f.lstat with
          | none => none
          | some st =>
            match st.kind with
            | FileKind.regular =>
              if skip (path ++ "/" ++ f.name) then none else some (path ++ "/" ++ f.name)
            | _ => none))
        ++ (subdirs.map (fun sd => visitedFiles skip (path ++ "/" ++ sd.1) sd.2)).flatten := by
  rw [visitedFiles]
  by_cases h : skip path
  · simp [h]
  · simp only [h, if_false]
    rw [List.attach_map_val subdirs (fun sd => visitedFiles skip (path ++ "/" ++ sd.1) sd.2)]

theorem visitedDirs_eq (skip : String → Bool) (path : String)
    (files : List FileEntry) (subdirs : List (String × FSTree)) :
    visitedDirs skip path (FSTree.mk files subdirs) =
      if skip path then []
      else
        path :: (subdirs.map (fun sd => visitedDirs skip (path ++ "/" ++ sd.1) sd.2)).flatten := by
  rw [visitedDirs]
  by_cases h : skip path
  · simp [h]
  · simp only [h, if_false]
    rw [List.attach_map_val subdirs (fun sd => visitedDirs skip (path ++ "/" ++ sd.1) sd.2)]

theorem aggFileRecords_paths (skip : String → Bool) (path : String) (t : FSTree) :
    (aggFileRecords skip path t).map (fun r => (r.path, r.kind)) =
      (visitedFiles skip path t).map (fun p => (p, EntryKind.File)) := by
  induction t using FSTree.ind generalizing path with
  | h files subdirs ih =>
    rw [aggFileRecords_eq, visitedFiles_eq]
    by_cases h : skip path
    · simp [h]
    · simp only [h, Bool.false_eq_true, if_false, List.map_append]
      apply congrArg₂ (fun a b => a ++ b)
      · rw [List.map_filterMap, List.map_filterMap]
        apply List.filterMap_congr
        intro f hf
        unfold processFileT
        cases hl : f.lstat with
        | none => rfl
        | some st =>
          simp only []
          cases hk : st.kind <;> simp only [] <;>
            by_cases hs : skip (path ++ "/" ++ f.name) <;> simp [hs]
      · rw [List.map_flatten, List.map_flatten, List.map_map, List.map_map]
        apply congrArg List.flatten
        apply List.map_congr_left
        intro sd hsd
        exact ih sd hsd (path ++ "/" ++ sd.1)

theorem aggDirRecords_paths (skip : String → Bool) (path : String) (t : FSTree) :
    (aggDirRecords skip path t).map (fun r => (r.path, r.kind)) =
      (visitedDirs skip path t).map (fun p => (p, EntryKind.Directory)) := by
  induction t using FSTree.ind generalizing path with
  | h files subdirs ih =>
    rw [aggDirRecords_eq, visitedDirs_eq]
    by_cases h : skip path
    · simp [h]
    · simp only [h, Bool.false_eq_true, if_false, List.map_cons]
      congr 1
      rw [List.map_flatten, List.map_flatten, List.map_map, List.map_map]
      congr 1
      apply List.map_congr_left
      intro sd hsd
      exact ih sd hsd (path ++ "/" ++ sd.1)

theorem sum_filterMap_sizes (g : FileEntry → Option AggRecord) (l : List FileEntry) :
    ((l.filterMap g).map (fun r => r.size_bytes)).sum =
      (l.map (fun f =>
        match g f with
        | none => 0
        | some r => r.size_bytes)).sum := by
  induction l with
  | nil => simp
  | cons f fs ih =>
    cases hg : g f <;> simp [List.filterMap_cons, hg, ih]

theorem subtreeTotal_eq_file_sum (skip : String → Bool) (path : String) (t : FSTree) :
    subtreeTotal skip path t =
      ((aggFileRecords skip path t).map (fun r => r.size_bytes)).sum := by
  induction t using FSTree.ind generalizing path with
  | h files subdirs ih =>
    rw [subtreeTotal_eq, aggFileRecords_eq]
    by_cases h : skip path
    · simp [h]
    · simp only [h, Bool.false_eq_true, if_false, List.map_append, List.sum_append]
      congr 1
      · rw [sum_filterMap_sizes]
        apply congrArg
        apply List.map_congr_left
        intro f hf
        cases hp : (processFileT skip (path ++ "/" ++ f.name) f).1 <;> simp [hp]
      · rw [List.map_flatten, List.sum_flatten, List.map_map, List.map_map]
        apply congrArg
        apply List.map_congr_left
        intro sd hsd
        exact ih sd hsd (path ++ "/" ++ sd.1)

theorem aggFileRecords_kinds (skip : String → Bool) (path : String) (t : FSTree) :
    (aggFileRecords skip path t).all (fun r => r.kind == EntryKind.File) = true := by
  rw [List.all_eq_true]
  intro r hr
  have h1 : (r.path, r.kind) ∈ (aggFileRecords skip path t).map (fun r => (r.path, r.kind)) :=
    List.mem_map_of_mem _ hr
  rw [aggFileRecords_paths] at h1
  rw [List.mem_map] at h1
  obtain ⟨p, hp, he⟩ := h1
  have h2 : r.kind = EntryKind.File := (Prod.mk.injEq _ _ _ _ ▸ he).2.symm
  simp [h2]

theorem aggDirRecords_kinds (skip : String → Bool) (path : String) (t : FSTree) :
    (aggDirRecords skip path t).all (fun r => r.kind == EntryKind.Directory) = true := by
  rw [List.all_eq_true]
  intro r hr
  have h1 : (r.path, r.kind) ∈ (aggDirRecords skip path t).map (fun r => (r.path, r.kind)) :=
    List.mem_map_of_mem _ hr
  rw [aggDirRecords_paths] at h1
  rw [List.mem_map] at h1
  obtain ⟨p, hp, he⟩ := h1
  have h2 : r.kind = EntryKind.Directory := (Prod.mk.injEq _ _ _ _ ▸ he).2.symm
  simp [h2]

/-- C8: the aggregating walk emits exactly one record per visited
filesystem object — its record stream, projected to (path, kind), is
precisely the list of visited files followed by the visited directories —
and every directory record (all of kind Directory) appears in the suffix
after every file record (all of kind File), i.e. only after all of its
descendants have been visited, carrying the sum of its descendant file
record sizes. -/
theorem C8_one_record_per_visited_object (skip : String → Bool) (path : String) (t : FSTree) :
    (walkAgg skip path t).map (fun r => (r.path, r.kind)) = visitedObjects skip path t ∧
    walkAgg skip path t = aggFileRecords skip path t ++ aggDirRecords skip path t ∧
    (aggFileRecords skip path t).all (fun r => r.kind == EntryKind.File) = true ∧
    (aggDirRecords skip path t).all (fun r => r.kind == EntryKind.Directory) = true ∧
    subtreeTotal skip path t =
      ((aggFileRecords skip path t).map (fun r => r.size_bytes)).sum := by
  refine ⟨?_, rfl, aggFileRecords_kinds skip path t, aggDirRecords_kinds skip path t,
    subtreeTotal_eq_file_sum skip path t⟩
  unfold walkAgg visitedObjects
  rw [List.map_append, aggFileRecords_paths, aggDirRecords_paths]

example :
    walkAgg (fun p => decide (p = "/root/excluded_mount")) "/root"
      (FSTree.mk []
        [("a", FSTree.mk [{ name := "file1", lstat := some ⟨FileKind.regular, 100, 0, 0⟩ }]
            [("b",
              FSTree.mk [{ name := "file2", lstat := some ⟨FileKind.regular, 50, 0, 0⟩ }] [])]),
         ("excluded_mount",
            FSTree.mk [{ name := "file3", lstat := some ⟨FileKind.regular, 1000000000, 0, 0⟩ }]
              [])]) =
      [⟨"/root/a/file1", EntryKind.File, 100⟩, ⟨"/root/a/b/file2", EntryKind.File, 50⟩,
       ⟨"/root", EntryKind.Directory, 150⟩, ⟨"/root/a", EntryKind.Directory, 150⟩,
       ⟨"/root/a/b", EntryKind.Directory, 50⟩] := by
  simp +decide [walkAgg, aggFileRecords_eq, aggDirRecords_eq, subtreeTotal_eq, processFileT]
